import Mathlib

/-!
Verification of the `bff` snapshot/diff tool.

The embedding follows `index.go`, `comparison.go` and `file_info.go`:
snapshots are flattened lists of file records, `compareFn` mirrors the body of
`Index.Compare`, `scanNode` mirrors `Index.scan` over an explicit directory
tree (the `filepath.Walk` traversal), and `findDuplicates` mirrors
`Index.FindDuplicates`.
-/

namespace Bff

instance {e a : Type} [DecidableEq e] [DecidableEq a] : DecidableEq (Except e a)
  | .ok x, .ok y =>
    if h : x = y then .isTrue (by rw [h]) else .isFalse (by intro hc; cases hc; exact h rfl)
  | .error x, .error y =>
    if h : x = y then .isTrue (by rw [h]) else .isFalse (by intro hc; cases hc; exact h rfl)
  | .ok _, .error _ => .isFalse (by intro hc; cases hc)
  | .error _, .ok _ => .isFalse (by intro hc; cases hc)

/-- One indexed file: relative path plus content fingerprint (`FileInfo.Path`
together with its key in `FilesByContentHash`).  `Size` and `ModTime` are
carried by the Go struct but never consulted by the compared operations, so the
embedding omits them. -/
structure FileEntry where
  path : String
  hash : String
deriving DecidableEq

/-- A snapshot flattened to its file records.  In Go the snapshot is
`FilesByContentHash : map[string][]*FileInfo`; iteration over the map keys is
unordered, but the slice inside each bucket keeps its append (scan) order and
that order drives rename-candidate selection.  The list keeps exactly that
information: the bucket of hash `h` is the sublist of entries whose hash is
`h`, in bucket order. -/
abbrev Snapshot := List FileEntry

/-- The paths of a snapshot, in record order. -/
def pathsOf (s : Snapshot) : List String := s.map FileEntry.path

/-- `savedHashByPath` / `currentHashByPath` lookup: the fingerprint stored for
path `p`, if any.  (With the data-model invariant that paths are unique inside
a snapshot, `find?` returns the one record of `p`.) -/
def hashOf (s : Snapshot) (p : String) : Option String :=
  (s.find? (fun e => e.path == p)).map FileEntry.hash

/-- One `(OldPath, NewPath)` pair of `Comparison.RenamedOrMoved`. -/
structure RenamedOrMovedFile where
  oldPath : String
  newPath : String
deriving DecidableEq

/-- The result struct of `Index.Compare`. -/
structure Comparison where
  added : List String
  modified : List String
  deleted : List String
  renamedOrMoved : List RenamedOrMovedFile
deriving DecidableEq

/-- The inner loop of the rename pass: look the current fingerprint up in
`savedIndex.FilesByContentHash` and take the first file of that bucket whose
path is not yet in `processedSaved`. -/
def pickCandidate (prev : Snapshot) (h : String) (consumed : List String) : Option String :=
  ((prev.filter (fun e => e.hash == h)).find?
      (fun e => !(consumed.contains e.path))).map FileEntry.path

/-- The mutable state of `Compare`'s rename pass: the pairs accumulated so far
and the two `processed*` sets (kept as lists; only membership is read). -/
structure RState where
  pairs : List RenamedOrMovedFile
  consumedSaved : List String
  consumedCurrent : List String
deriving DecidableEq

/-- One iteration of the rename-pass loop body for current path `p`: skip if
`processedCurrent[p]`, otherwise match `p`'s fingerprint against the first
unconsumed saved file with the same fingerprint, emitting a pair and marking
both paths consumed. -/
def renameStep (prev cur : Snapshot) (s : RState) (p : String) : RState :=
  if s.consumedCurrent.contains p then s
  else
    match hashOf cur p with
    | none => s
    | some h =>
      match pickCandidate prev h s.consumedSaved with
      | none => s
      | some old =>
        { pairs := s.pairs ++ [⟨old, p⟩]
          consumedSaved := s.consumedSaved ++ [old]
          consumedCurrent := s.consumedCurrent ++ [p] }

/-- The modification pass marks every path present in both snapshots as
processed (in both `processedCurrent` and `processedSaved`), whatever its
fingerprints. -/
def initialConsumed (prev cur : Snapshot) : List String :=
  (pathsOf cur).filter (fun p => (hashOf prev p).isSome)

/-- The test of the modification pass for one current path: it is also a saved
path and the two fingerprints differ. -/
def modifiedPred (prev cur : Snapshot) (p : String) : Bool :=
  match hashOf prev p, hashOf cur p with
  | some hs, some hc => hc != hs
  | _, _ => false

/-- The `Modified` result of the modification pass: paths present in both
snapshots whose fingerprints differ. -/
def modifiedList (prev cur : Snapshot) : List String :=
  (pathsOf cur).filter (modifiedPred prev cur)

/-- The body of `Index.Compare` after both path→hash maps are built.  `order`
is the iteration order of the current-path map in the rename pass (Go map
iteration is unordered, so `Compare`'s behaviour is a function of the two
snapshots *and* of this order); the residual passes only filter by membership,
so their map iteration order is irrelevant to the resulting sets and they are
taken in record order. -/
def finalState (prev cur : Snapshot) (order : List String) : RState :=
  order.foldl (renameStep prev cur) ⟨[], initialConsumed prev cur, initialConsumed prev cur⟩

/-- The four result sets of `Compare`: the rename pass runs over `order`, then
the residual passes list the still-unconsumed current paths as `Added` and the
still-unconsumed saved paths as `Deleted`. -/
def compareFn (prev cur : Snapshot) (order : List String) : Comparison :=
  let st := finalState prev cur order
  { added := (pathsOf cur).filter (fun p => !(st.consumedCurrent.contains p))
    modified := modifiedList prev cur
    deleted := (pathsOf prev).filter (fun p => !(st.consumedSaved.contains p))
    renamedOrMoved := st.pairs }

/-- `Compare` with one particular (representative) iteration order of the
current-path map. -/
def compareRun (prev cur : Snapshot) : Comparison :=
  compareFn prev cur (pathsOf cur)

/-- The old paths of the rename pairs of a comparison. -/
def oldPaths (c : Comparison) : List String := c.renamedOrMoved.map RenamedOrMovedFile.oldPath

/-- The new paths of the rename pairs of a comparison. -/
def newPaths (c : Comparison) : List String := c.renamedOrMoved.map RenamedOrMovedFile.newPath

/-- Invariant of the rename-pass state, relative to the set `common` of paths
the modification pass consumed: the two `processed*` sets are exactly `common`
plus the old (resp. new) paths of the pairs emitted so far; no saved path is
consumed twice and no current path matched twice; matched paths avoid
`common`; and each pair joins a current path to a saved file with the current
path's fingerprint. -/
structure RInv (prev cur : Snapshot) (common : List String) (s : RState) : Prop where
  cs_eq : s.consumedSaved = common ++ s.pairs.map RenamedOrMovedFile.oldPath
  cc_eq : s.consumedCurrent = common ++ s.pairs.map RenamedOrMovedFile.newPath
  olds_nodup : (s.pairs.map RenamedOrMovedFile.oldPath).Nodup
  news_nodup : (s.pairs.map RenamedOrMovedFile.newPath).Nodup
  olds_not_common : ∀ o ∈ s.pairs.map RenamedOrMovedFile.oldPath, o ∉ common
  news_not_common : ∀ n ∈ s.pairs.map RenamedOrMovedFile.newPath, n ∉ common
  pair_hash : ∀ pr ∈ s.pairs, ∃ h, hashOf cur pr.newPath = some h ∧
    ∃ e ∈ prev, e.path = pr.oldPath ∧ e.hash = h

/-! ## Scan model

`Index.scan` drives `filepath.Walk` over the directory tree below `AbsPath`.
The tree is made explicit as `FsNode`; a file node carries the outcome of
`ProcessFile` on it (`Except.ok fingerprint`, or `Except.error cause` when the
file cannot be stated/opened/read).  Paths are modelled as segment lists
relative to the root (`filepath.Rel(AbsPath, path)` split at separators), so
the root itself is `[]` and `idx.indexPath()` is `[IndexFile]`. -/

/-- A node of the scanned directory tree. -/
inductive FsNode where
  | file (name : String) (data : Except String String)
  | dir (name : String) (children : List FsNode)

/-- The base name of a node (`info.Name()`). -/
def FsNode.name : FsNode → String
  | .file n _ => n
  | .dir n _ => n

/-- `strings.HasPrefix(info.Name(), ".")`: the base name begins with a dot. -/
def isHiddenName (nm : String) : Bool :=
  match nm.data with
  | [] => false
  | c :: _ => c == '.'

/-- `const IndexFile = "bff.json"`. -/
def indexFileName : String := "bff.json"

/-- The error produced by a failed scan: the offending path and the underlying
cause (`fmt.Errorf("failed to process %s: %w", path, err)` wrapped by
`fmt.Errorf("scan failed: %w", err)`). -/
structure ScanError where
  path : List String
  cause : String
deriving DecidableEq

/-- An indexed record as persisted: relative path and fingerprint. -/
abbrev ScanRecord := List String × String

mutual
/-- The `filepath.Walk` callback of `Index.scan` applied to the node at
relative path `rel` (the root is `rel = []`), together with the walk's
recursion into directories.  In order: skip the index file itself
(`path == idx.indexPath()`, but a directory named like it is still descended
into, since the callback merely returns `nil`); skip hidden entries unless
`IncludeHidden`, pruning a hidden directory's whole subtree (`SkipDir`);
directories produce no record; a regular file is processed, aborting the walk
on the first `ProcessFile` failure. -/
def scanNode (ih : Bool) (rel : List String) : FsNode → Except ScanError (List ScanRecord)
  | .file nm data =>
    if rel = [indexFileName] then .ok []
    else if !ih && rel ≠ [] && isHiddenName nm then .ok []
    else
      match data with
      | .ok h => .ok [(rel, h)]
      | .error c => .error ⟨rel, c⟩
  | .dir nm children =>
    if rel = [indexFileName] then scanChildren ih rel children
    else if !ih && rel ≠ [] && isHiddenName nm then .ok []
    else scanChildren ih rel children
termination_by structural n => n

/-- Walk the children of a directory at `rel` in traversal order, aborting on
the first error. -/
def scanChildren (ih : Bool) (rel : List String) : List FsNode → Except ScanError (List ScanRecord)
  | [] => .ok []
  | c :: cs => do
    let r1 ← scanNode ih (rel ++ [c.name]) c
    let r2 ← scanChildren ih rel cs
    .ok (r1 ++ r2)
termination_by structural l => l
end

/-- A whole scan, rooted at `AbsPath`. -/
def scanRoot (ih : Bool) (root : FsNode) : Except ScanError (List ScanRecord) :=
  scanNode ih [] root

mutual
/-- The entries the scan retains (does not skip), with their `ProcessFile`
outcomes, in walk order: the same traversal as `scanNode` but without the
abort-on-error, used to state which entry a failed scan fails on. -/
def retainedNode (ih : Bool) (rel : List String) :
    FsNode → List (List String × Except String String)
  | .file nm data =>
    if rel = [indexFileName] then []
    else if !ih && rel ≠ [] && isHiddenName nm then []
    else [(rel, data)]
  | .dir nm children =>
    if rel = [indexFileName] then retainedChildren ih rel children
    else if !ih && rel ≠ [] && isHiddenName nm then []
    else retainedChildren ih rel children
termination_by structural n => n

/-- Retained entries of a list of children, in traversal order. -/
def retainedChildren (ih : Bool) (rel : List String) :
    List FsNode → List (List String × Except String String)
  | [] => []
  | c :: cs => retainedNode ih (rel ++ [c.name]) c ++ retainedChildren ih rel cs
termination_by structural l => l
end

/-- Collect processed entries, aborting at the first failure: the abstract
shape of `Index.scan`'s record accumulation. -/
def collectE : List (List String × Except String String) → Except ScanError (List ScanRecord)
  | [] => .ok []
  | (r, .ok h) :: rest => (collectE rest).map (fun l => (r, h) :: l)
  | (r, .error c) :: _ => .error ⟨r, c⟩

/-- `true` on a failed `ProcessFile` outcome. -/
def isFailure : Except String String → Bool
  | .error _ => true
  | .ok _ => false

/-- The outcome of `Index.Index()`: the returned `(count, error)` pair and the
persisted index file (`None` when nothing was written). -/
structure IndexOutcome where
  result : Except ScanError Nat
  written : Option (List ScanRecord)
deriving DecidableEq

/-- `Index.Index()`: scan, then marshal and write the index file; on a scan
error return it without writing anything. -/
def indexMethod (ih : Bool) (root : FsNode) : IndexOutcome :=
  match scanRoot ih root with
  | .error e => ⟨.error e, none⟩
  | .ok recs => ⟨.ok recs.length, some recs⟩

/-! ## FindDuplicates -/

/-- The `NotFoundError` of `FindDuplicates` (`fmt.Errorf("file %q not found in
index", targetPath)`). -/
inductive NotFoundError where
  | notFound (path : String)
deriving DecidableEq

/-- The first phase of `Index.FindDuplicates`: `targetHash` starts as the empty
string and is set to the bucket key of the first record whose path is
`targetPath`. -/
def findTargetHash (s : Snapshot) (target : String) : String :=
  match s.find? (fun e => e.path == target) with
  | some e => e.hash
  | none => ""

/-- `Index.FindDuplicates(targetPath)`: locate the target's fingerprint, fail
with `NotFoundError` when it was never set, otherwise return the paths of the
whole bucket of that fingerprint. -/
def findDuplicates (s : Snapshot) (target : String) : Except NotFoundError (List String) :=
  let targetHash := findTargetHash s target
  if targetHash = "" then .error (.notFound target)
  else .ok ((s.filter (fun e => e.hash == targetHash)).map FileEntry.path)

/-! ## The Compare method -/

/-- The fields of the Go `Index` struct that `Compare` can read or write. -/
structure IndexState where
  filesByContentHash : Snapshot
  absPath : List String
  includeHidden : Bool
deriving DecidableEq

/-- `Index.Compare()` on the success path: capture the loaded records as
`savedIndex`, replace `idx.FilesByContentHash` with a fresh scan of the
directory (the scan's outcome is supplied as `rescan`; a scan failure is
returned unchanged and is not modelled here), then diff saved against fresh.
The returned state is the receiver after the method. -/
def compareMethod (idx : IndexState) (rescan : Snapshot) : Comparison × IndexState :=
  let savedIndex := idx.filesByContentHash
  let idx' := { idx with filesByContentHash := rescan }
  (compareRun savedIndex rescan, idx')

/-! ## Basic lemmas -/

theorem contains_true_iff (l : List String) (a : String) : l.contains a = true ↔ a ∈ l := by
  simp [List.contains, List.elem_iff]

theorem contains_false_iff (l : List String) (a : String) : l.contains a = false ↔ a ∉ l := by
  rw [← Bool.not_eq_true, contains_true_iff]

theorem mem_pathsOf {s : Snapshot} {p : String} : p ∈ pathsOf s ↔ ∃ e ∈ s, e.path = p := by
  simp [pathsOf, List.mem_map]

theorem hashOf_isSome_iff (s : Snapshot) (p : String) :
    (hashOf s p).isSome = true ↔ p ∈ pathsOf s := by
  simp [hashOf, Option.isSome_map', List.find?_isSome, pathsOf, List.mem_map]

theorem hashOf_some_mem {s : Snapshot} {p h : String} (hh : hashOf s p = some h) :
    ∃ e ∈ s, e.path = p ∧ e.hash = h := by
  rcases Option.map_eq_some'.mp hh with ⟨e, hfind, hhash⟩
  exact ⟨e, List.mem_of_find?_eq_some hfind,
    by simpa using List.find?_some hfind, hhash⟩

theorem mem_of_hashOf_some {s : Snapshot} {p h : String} (hh : hashOf s p = some h) :
    p ∈ pathsOf s := by
  rcases hashOf_some_mem hh with ⟨e, he, hp, -⟩
  exact mem_pathsOf.mpr ⟨e, he, hp⟩

theorem hashOf_isSome_of_mem {s : Snapshot} {p : String} (hp : p ∈ pathsOf s) :
    ∃ h, hashOf s p = some h :=
  Option.isSome_iff_exists.mp ((hashOf_isSome_iff s p).mpr hp)

theorem hashOf_entry {s : Snapshot} (hn : (pathsOf s).Nodup) {e : FileEntry} (he : e ∈ s) :
    hashOf s e.path = some e.hash := by
  rcases hashOf_isSome_of_mem (mem_pathsOf.mpr ⟨e, he, rfl⟩) with ⟨h, hh⟩
  rcases hashOf_some_mem hh with ⟨e', he', hp', hh'⟩
  have hee : e' = e := List.inj_on_of_nodup_map (by simpa [pathsOf] using hn) he' he hp'
  rw [hh, ← hh', hee]

theorem pickCandidate_some {prev : Snapshot} {h o : String} {cs : List String}
    (hp : pickCandidate prev h cs = some o) :
    ∃ e ∈ prev, e.path = o ∧ e.hash = h ∧ o ∉ cs := by
  rcases Option.map_eq_some'.mp hp with ⟨e, hfind, hpath⟩
  have hmemf := List.mem_of_find?_eq_some hfind
  have hpred := List.find?_some hfind
  rw [List.mem_filter] at hmemf
  refine ⟨e, hmemf.1, hpath, by simpa using hmemf.2, ?_⟩
  rw [← hpath]
  rw [Bool.not_eq_true'] at hpred
  exact (contains_false_iff _ _).mp hpred

theorem pickCandidate_none {prev : Snapshot} {h : String} {cs : List String}
    (hp : pickCandidate prev h cs = none) :
    ∀ e ∈ prev, e.hash = h → e.path ∈ cs := by
  intro e he hh
  have hfind : (prev.filter (fun e => e.hash == h)).find?
      (fun e => !(cs.contains e.path)) = none := by
    simpa [pickCandidate, Option.map_eq_none'] using hp
  have hpred := List.find?_eq_none.mp hfind e (List.mem_filter.mpr ⟨he, by simp [hh]⟩)
  rw [Bool.not_eq_true', Bool.not_eq_false] at hpred
  exact (contains_true_iff _ _).mp hpred

theorem renameStep_cases (prev cur : Snapshot) (s : RState) (p : String) :
    renameStep prev cur s p = s ∨
    ∃ h old, p ∉ s.consumedCurrent ∧ hashOf cur p = some h ∧
      pickCandidate prev h s.consumedSaved = some old ∧
      renameStep prev cur s p =
        ⟨s.pairs ++ [⟨old, p⟩], s.consumedSaved ++ [old], s.consumedCurrent ++ [p]⟩ := by
  by_cases hcc : p ∈ s.consumedCurrent
  · left; simp [renameStep, hcc]
  · cases hh : hashOf cur p with
    | none => left; simp [renameStep, hcc, hh]
    | some h =>
      cases hpick : pickCandidate prev h s.consumedSaved with
      | none => left; simp [renameStep, hcc, hh, hpick]
      | some old =>
        right
        exact ⟨h, old, hcc, rfl, hpick, by simp [renameStep, hcc, hh, hpick]⟩

theorem renameStep_cs_sub (prev cur : Snapshot) (s : RState) (p : String) :
    ∀ x ∈ s.consumedSaved, x ∈ (renameStep prev cur s p).consumedSaved := by
  intro x hx
  rcases renameStep_cases prev cur s p with heq | ⟨h, old, -, -, -, heq⟩ <;> rw [heq]
  · exact hx
  · exact List.mem_append_left _ hx

theorem renameStep_cc_sub (prev cur : Snapshot) (s : RState) (p : String) :
    ∀ x ∈ s.consumedCurrent, x ∈ (renameStep prev cur s p).consumedCurrent := by
  intro x hx
  rcases renameStep_cases prev cur s p with heq | ⟨h, old, -, -, -, heq⟩ <;> rw [heq]
  · exact hx
  · exact List.mem_append_left _ hx

theorem foldl_cs_sub (prev cur : Snapshot) (order : List String) (s : RState) :
    ∀ x ∈ s.consumedSaved, x ∈ (order.foldl (renameStep prev cur) s).consumedSaved := by
  induction order generalizing s with
  | nil => intro x hx; exact hx
  | cons q t ih =>
    intro x hx
    exact ih _ x (renameStep_cs_sub prev cur s q x hx)

theorem foldl_cc_sub (prev cur : Snapshot) (order : List String) (s : RState) :
    ∀ x ∈ s.consumedCurrent, x ∈ (order.foldl (renameStep prev cur) s).consumedCurrent := by
  induction order generalizing s with
  | nil => intro x hx; exact hx
  | cons q t ih =>
    intro x hx
    exact ih _ x (renameStep_cc_sub prev cur s q x hx)

/-! ## The rename-pass invariant -/

theorem rinv_init (prev cur : Snapshot) :
    RInv prev cur (initialConsumed prev cur)
      ⟨[], initialConsumed prev cur, initialConsumed prev cur⟩ := by
  exact ⟨by simp, by simp, by simp, by simp, by simp, by simp, by simp⟩

theorem rinv_step {prev cur : Snapshot} {common : List String} {s : RState} (p : String)
    (hinv : RInv prev cur common s) : RInv prev cur common (renameStep prev cur s p) := by
  rcases renameStep_cases prev cur s p with heq | ⟨h, old, hcc, hh, hpick, heq⟩
  · rw [heq]; exact hinv
  · rcases pickCandidate_some hpick with ⟨e, he, hep, heh, hocs⟩
    have holds : old ∉ s.pairs.map RenamedOrMovedFile.oldPath := fun hx =>
      hocs (by rw [hinv.cs_eq]; exact List.mem_append_right _ hx)
    have holdc : old ∉ common := fun hx =>
      hocs (by rw [hinv.cs_eq]; exact List.mem_append_left _ hx)
    have hnews : p ∉ s.pairs.map RenamedOrMovedFile.newPath := fun hx =>
      hcc (by rw [hinv.cc_eq]; exact List.mem_append_right _ hx)
    have hnewc : p ∉ common := fun hx =>
      hcc (by rw [hinv.cc_eq]; exact List.mem_append_left _ hx)
    rw [heq]
    refine ⟨?_, ?_, ?_, ?_, ?_, ?_, ?_⟩
    · simp [hinv.cs_eq]
    · simp [hinv.cc_eq]
    · simp [List.nodup_append, hinv.olds_nodup, holds]
    · simp [List.nodup_append, hinv.news_nodup, hnews]
    · intro o ho
      rcases by simpa using ho with h1 | h1
      · exact hinv.olds_not_common o (by simpa using h1)
      · rw [h1]; exact holdc
    · intro n hn
      rcases by simpa using hn with h1 | h1
      · exact hinv.news_not_common n (by simpa using h1)
      · rw [h1]; exact hnewc
    · intro pr hpr
      rcases by simpa using hpr with h1 | h1
      · exact hinv.pair_hash pr h1
      · rw [h1]; exact ⟨h, hh, e, he, hep, heh⟩

theorem rinv_fold {prev cur : Snapshot} {common : List String} (order : List String) {s : RState}
    (hinv : RInv prev cur common s) :
    RInv prev cur common (order.foldl (renameStep prev cur) s) := by
  induction order generalizing s with
  | nil => exact hinv
  | cons q t ih => exact ih (rinv_step q hinv)

theorem rinv_final (prev cur : Snapshot) (order : List String) :
    RInv prev cur (initialConsumed prev cur) (finalState prev cur order) :=
  rinv_fold order (rinv_init prev cur)

/-! ## Membership characterizations of the comparison sets -/

theorem mem_initialConsumed {prev cur : Snapshot} {p : String} :
    p ∈ initialConsumed prev cur ↔ p ∈ pathsOf cur ∧ p ∈ pathsOf prev := by
  simp [initialConsumed, List.mem_filter, hashOf_isSome_iff]

theorem compare_pairs (prev cur : Snapshot) (order : List String) :
    (compareFn prev cur order).renamedOrMoved = (finalState prev cur order).pairs := rfl

theorem compare_olds (prev cur : Snapshot) (order : List String) :
    oldPaths (compareFn prev cur order) =
      (finalState prev cur order).pairs.map RenamedOrMovedFile.oldPath := rfl

theorem compare_news (prev cur : Snapshot) (order : List String) :
    newPaths (compareFn prev cur order) =
      (finalState prev cur order).pairs.map RenamedOrMovedFile.newPath := rfl

theorem mem_added_iff {prev cur : Snapshot} {order : List String} {p : String} :
    p ∈ (compareFn prev cur order).added ↔
      p ∈ pathsOf cur ∧ p ∉ (finalState prev cur order).consumedCurrent := by
  simp [compareFn, List.mem_filter]

theorem mem_deleted_iff {prev cur : Snapshot} {order : List String} {p : String} :
    p ∈ (compareFn prev cur order).deleted ↔
      p ∈ pathsOf prev ∧ p ∉ (finalState prev cur order).consumedSaved := by
  simp [compareFn, List.mem_filter]

theorem modifiedPred_iff {prev cur : Snapshot} {p hc : String} (h2 : hashOf cur p = some hc) :
    modifiedPred prev cur p = true ↔ p ∈ pathsOf prev ∧ hashOf cur p ≠ hashOf prev p := by
  cases h1 : hashOf prev p with
  | none => simp [modifiedPred, h1, h2, ← hashOf_isSome_iff]
  | some hs => simp [modifiedPred, h1, h2, ← hashOf_isSome_iff, bne_iff_ne]

theorem mem_modified_iff {prev cur : Snapshot} {order : List String} {p : String} :
    p ∈ (compareFn prev cur order).modified ↔
      p ∈ pathsOf cur ∧ p ∈ pathsOf prev ∧ hashOf cur p ≠ hashOf prev p := by
  constructor
  · intro hp
    have hp' : p ∈ pathsOf cur ∧ modifiedPred prev cur p = true := by
      simpa [compareFn, modifiedList, List.mem_filter] using hp
    rcases hashOf_isSome_of_mem hp'.1 with ⟨hc, h2⟩
    have := (modifiedPred_iff h2).mp hp'.2
    exact ⟨hp'.1, this.1, this.2⟩
  · rintro ⟨hmem, hprev, hne⟩
    rcases hashOf_isSome_of_mem hmem with ⟨hc, h2⟩
    have : p ∈ pathsOf cur ∧ modifiedPred prev cur p = true :=
      ⟨hmem, (modifiedPred_iff h2).mpr ⟨hprev, hne⟩⟩
    simpa [compareFn, modifiedList, List.mem_filter] using this

theorem mem_added_decomp {prev cur : Snapshot} {order : List String} {p : String} :
    p ∈ (compareFn prev cur order).added ↔
      p ∈ pathsOf cur ∧ p ∉ initialConsumed prev cur ∧
        p ∉ newPaths (compareFn prev cur order) := by
  rw [mem_added_iff, (rinv_final prev cur order).cc_eq, compare_news]
  simp [List.mem_append]

theorem mem_deleted_decomp {prev cur : Snapshot} {order : List String} {p : String} :
    p ∈ (compareFn prev cur order).deleted ↔
      p ∈ pathsOf prev ∧ p ∉ initialConsumed prev cur ∧
        p ∉ oldPaths (compareFn prev cur order) := by
  rw [mem_deleted_iff, (rinv_final prev cur order).cs_eq, compare_olds]
  simp [List.mem_append]

theorem olds_spec {prev cur : Snapshot} {order : List String} {p : String}
    (hp : p ∈ oldPaths (compareFn prev cur order)) :
    p ∈ pathsOf prev ∧ p ∉ initialConsumed prev cur := by
  rw [compare_olds] at hp
  have inv := rinv_final prev cur order
  constructor
  · rcases List.mem_map.mp hp with ⟨pr, hpr, hpe⟩
    rcases inv.pair_hash pr hpr with ⟨h, hnew, e, he, hep, heh⟩
    exact mem_pathsOf.mpr ⟨e, he, by rw [hep, hpe]⟩
  · exact inv.olds_not_common p hp

theorem news_spec {prev cur : Snapshot} {order : List String} {p : String}
    (hp : p ∈ newPaths (compareFn prev cur order)) :
    p ∈ pathsOf cur ∧ p ∉ initialConsumed prev cur := by
  rw [compare_news] at hp
  have inv := rinv_final prev cur order
  constructor
  · rcases List.mem_map.mp hp with ⟨pr, hpr, hpe⟩
    rcases inv.pair_hash pr hpr with ⟨h, hnew, e, he, hep, heh⟩
    exact mem_of_hashOf_some (by rw [← hpe]; exact hnew)
  · exact inv.news_not_common p hp

theorem not_both_of_not_common {prev cur : Snapshot} {p : String}
    (hp : p ∉ initialConsumed prev cur) : ¬(p ∈ pathsOf cur ∧ p ∈ pathsOf prev) := by
  intro hb
  exact hp (mem_initialConsumed.mpr hb)

/-- C1 (amended): the five path sets of `Compare` — added, modified, deleted,
and the old and new paths of the rename pairs — are pairwise disjoint, and
their union is the union of all paths of both snapshots *minus the unchanged
paths* (paths present in both snapshots with equal fingerprint, which appear
in no category). -/
theorem c1_partition_amended (prev cur : Snapshot) (order : List String) :
    (∀ p ∈ (compareFn prev cur order).modified,
      p ∉ (compareFn prev cur order).added ∧ p ∉ (compareFn prev cur order).deleted ∧
      p ∉ oldPaths (compareFn prev cur order) ∧ p ∉ newPaths (compareFn prev cur order)) ∧
    (∀ p ∈ (compareFn prev cur order).added,
      p ∉ (compareFn prev cur order).deleted ∧
      p ∉ oldPaths (compareFn prev cur order) ∧ p ∉ newPaths (compareFn prev cur order)) ∧
    (∀ p ∈ (compareFn prev cur order).deleted,
      p ∉ oldPaths (compareFn prev cur order) ∧ p ∉ newPaths (compareFn prev cur order)) ∧
    (∀ p ∈ oldPaths (compareFn prev cur order), p ∉ newPaths (compareFn prev cur order)) ∧
    (∀ p, (p ∈ (compareFn prev cur order).added ∨ p ∈ (compareFn prev cur order).modified ∨
        p ∈ (compareFn prev cur order).deleted ∨ p ∈ oldPaths (compareFn prev cur order) ∨
        p ∈ newPaths (compareFn prev cur order)) ↔
      ((p ∈ pathsOf prev ∨ p ∈ pathsOf cur) ∧
        ¬ ∃ h, hashOf prev p = some h ∧ hashOf cur p = some h)) := by
  have hMc : ∀ p ∈ (compareFn prev cur order).modified, p ∈ initialConsumed prev cur := by
    intro p hp
    rcases mem_modified_iff.mp hp with ⟨h1, h2, -⟩
    exact mem_initialConsumed.mpr ⟨h1, h2⟩
  refine ⟨?_, ?_, ?_, ?_, ?_⟩
  · intro p hp
    have hcom := hMc p hp
    exact ⟨fun ha => (mem_added_decomp.mp ha).2.1 hcom,
      fun hd => (mem_deleted_decomp.mp hd).2.1 hcom,
      fun ho => (olds_spec ho).2 hcom,
      fun hn => (news_spec hn).2 hcom⟩
  · intro p hp
    rcases mem_added_decomp.mp hp with ⟨hcur, hncom, hnnew⟩
    have hnprev : p ∉ pathsOf prev := fun hprev =>
      not_both_of_not_common hncom ⟨hcur, hprev⟩
    exact ⟨fun hd => hnprev (mem_deleted_decomp.mp hd).1,
      fun ho => hnprev (olds_spec ho).1, hnnew⟩
  · intro p hp
    rcases mem_deleted_decomp.mp hp with ⟨hprev, hncom, hnold⟩
    have hncur : p ∉ pathsOf cur := fun hcur =>
      not_both_of_not_common hncom ⟨hcur, hprev⟩
    exact ⟨hnold, fun hn => hncur (news_spec hn).1⟩
  · intro p hp
    rcases olds_spec hp with ⟨hprev, hncom⟩
    intro hn
    exact not_both_of_not_common hncom ⟨(news_spec hn).1, hprev⟩
  · intro p
    constructor
    · rintro (hp | hp | hp | hp | hp)
      · rcases mem_added_decomp.mp hp with ⟨hcur, hncom, -⟩
        refine ⟨Or.inr hcur, ?_⟩
        rintro ⟨h, hh1, hh2⟩
        exact not_both_of_not_common hncom ⟨hcur, mem_of_hashOf_some hh1⟩
      · rcases mem_modified_iff.mp hp with ⟨hcur, hprev, hne⟩
        refine ⟨Or.inr hcur, ?_⟩
        rintro ⟨h, hh1, hh2⟩
        exact hne (by rw [hh1, hh2])
      · rcases mem_deleted_decomp.mp hp with ⟨hprev, hncom, -⟩
        refine ⟨Or.inl hprev, ?_⟩
        rintro ⟨h, hh1, hh2⟩
        exact not_both_of_not_common hncom ⟨mem_of_hashOf_some hh2, hprev⟩
      · rcases olds_spec hp with ⟨hprev, hncom⟩
        refine ⟨Or.inl hprev, ?_⟩
        rintro ⟨h, hh1, hh2⟩
        exact not_both_of_not_common hncom ⟨mem_of_hashOf_some hh2, hprev⟩
      · rcases news_spec hp with ⟨hcur, hncom⟩
        refine ⟨Or.inr hcur, ?_⟩
        rintro ⟨h, hh1, hh2⟩
        exact not_both_of_not_common hncom ⟨hcur, mem_of_hashOf_some hh1⟩
    · rintro ⟨hmem, hnun⟩
      by_cases hcur : p ∈ pathsOf cur
      · by_cases hprev : p ∈ pathsOf prev
        · rcases hashOf_isSome_of_mem hcur with ⟨hc, hhc⟩
          rcases hashOf_isSome_of_mem hprev with ⟨hpv, hhp⟩
          have hne : hashOf cur p ≠ hashOf prev p := fun heq =>
            hnun ⟨hpv, hhp, heq.trans hhp⟩
          exact Or.inr (Or.inl (mem_modified_iff.mpr ⟨hcur, hprev, hne⟩))
        · have hncom : p ∉ initialConsumed prev cur := fun hcom =>
            hprev (mem_initialConsumed.mp hcom).2
          by_cases hnew : p ∈ newPaths (compareFn prev cur order)
          · exact Or.inr (Or.inr (Or.inr (Or.inr hnew)))
          · exact Or.inl (mem_added_decomp.mpr ⟨hcur, hncom, hnew⟩)
      · have hprev : p ∈ pathsOf prev := hmem.resolve_right hcur
        have hncom : p ∉ initialConsumed prev cur := fun hcom =>
          hcur (mem_initialConsumed.mp hcom).1
        by_cases hold : p ∈ oldPaths (compareFn prev cur order)
        · exact Or.inr (Or.inr (Or.inr (Or.inl hold)))
        · exact Or.inr (Or.inr (Or.inl (mem_deleted_decomp.mpr ⟨hprev, hncom, hold⟩)))

/-! ## Self comparison (C4) -/

theorem foldl_fixed {α β : Type} {f : β → α → β} {b : β} (h : ∀ a, f b a = b) :
    ∀ l : List α, l.foldl f b = b
  | [] => rfl
  | a :: t => by rw [List.foldl_cons, h a]; exact foldl_fixed h t

theorem initialConsumed_self (s : Snapshot) : initialConsumed s s = pathsOf s :=
  List.filter_eq_self.mpr (fun p hp => by
    rcases hashOf_isSome_of_mem hp with ⟨h, hh⟩
    simp [hh])

theorem renameStep_self (s : Snapshot) (p : String) :
    renameStep s s ⟨[], pathsOf s, pathsOf s⟩ p = ⟨[], pathsOf s, pathsOf s⟩ := by
  rcases renameStep_cases s s ⟨[], pathsOf s, pathsOf s⟩ p with
    heq | ⟨h, old, hcc, hh, hpick, heq⟩
  · exact heq
  · exact absurd (mem_of_hashOf_some hh) hcc

theorem modifiedList_self (s : Snapshot) : modifiedList s s = [] := by
  refine List.filter_eq_nil_iff.mpr (fun p hp => ?_)
  rcases hashOf_isSome_of_mem hp with ⟨h, hh⟩
  simp [modifiedPred, hh]

theorem finalState_self (s : Snapshot) (order : List String) :
    finalState s s order = ⟨[], pathsOf s, pathsOf s⟩ := by
  rw [finalState, initialConsumed_self]
  exact foldl_fixed (renameStep_self s) order

/-- C4: comparing a snapshot against an identical snapshot yields an empty
comparison (no added, modified, deleted or renamed entries), for every
iteration order of the rename pass. -/
theorem c4_compare_self_empty (s : Snapshot) (order : List String) :
    compareFn s s order = ⟨[], [], [], []⟩ := by
  have hfs := finalState_self s order
  have hfil : (pathsOf s).filter (fun p => !((pathsOf s).contains p)) = [] :=
    List.filter_eq_nil_iff.mpr (fun p hp => by simp [contains_true_iff, hp])
  simp [compareFn, hfs, modifiedList_self, hfil]

/-- C1 witness: the amended partition theorem applied at the one-file
modified example: the modified path is in no other category. -/
theorem c1_witness :
    "a.txt" ∉ (compareFn [(⟨"a.txt", "h1"⟩ : FileEntry)] [⟨"a.txt", "h2"⟩] ["a.txt"]).added ∧
    "a.txt" ∉ (compareFn [(⟨"a.txt", "h1"⟩ : FileEntry)] [⟨"a.txt", "h2"⟩] ["a.txt"]).deleted ∧
    "a.txt" ∉ oldPaths (compareFn [(⟨"a.txt", "h1"⟩ : FileEntry)] [⟨"a.txt", "h2"⟩] ["a.txt"]) ∧
    "a.txt" ∉ newPaths (compareFn [(⟨"a.txt", "h1"⟩ : FileEntry)] [⟨"a.txt", "h2"⟩] ["a.txt"]) :=
  (c1_partition_amended [⟨"a.txt", "h1"⟩] [⟨"a.txt", "h2"⟩] ["a.txt"]).1 "a.txt" (by decide)

/-- C1 (counterexample): on two identical one-file snapshots every category of
the comparison is empty, yet the file's path occurs in both snapshots, so the
union of the four categories' paths is not the union of all paths from both
snapshots. -/
theorem c1_counterexample :
    ¬ (∀ p, (p ∈ (compareRun [⟨"a.txt", "h1"⟩] [⟨"a.txt", "h1"⟩]).added ∨
        p ∈ (compareRun [⟨"a.txt", "h1"⟩] [⟨"a.txt", "h1"⟩]).modified ∨
        p ∈ (compareRun [⟨"a.txt", "h1"⟩] [⟨"a.txt", "h1"⟩]).deleted ∨
        p ∈ oldPaths (compareRun [⟨"a.txt", "h1"⟩] [⟨"a.txt", "h1"⟩]) ∨
        p ∈ newPaths (compareRun [⟨"a.txt", "h1"⟩] [⟨"a.txt", "h1"⟩])) ↔
      (p ∈ pathsOf [(⟨"a.txt", "h1"⟩ : FileEntry)] ∨
        p ∈ pathsOf [(⟨"a.txt", "h1"⟩ : FileEntry)])) := by
  intro hall
  have hmem := (hall "a.txt").mpr (Or.inl (by decide))
  revert hmem
  decide

/-- C2: a path present in both snapshots is classified as modified exactly when
its two fingerprints differ; whether they differ or not it is never reported
as added or deleted and never consumed by a rename pair. -/
theorem c2_modification_priority (prev cur : Snapshot) (order : List String) (p h1 h2 : String)
    (hp : hashOf prev p = some h1) (hc : hashOf cur p = some h2) :
    (p ∈ (compareFn prev cur order).modified ↔ h1 ≠ h2) ∧
    p ∉ (compareFn prev cur order).added ∧
    p ∉ (compareFn prev cur order).deleted ∧
    p ∉ oldPaths (compareFn prev cur order) ∧
    p ∉ newPaths (compareFn prev cur order) := by
  have hcur : p ∈ pathsOf cur := mem_of_hashOf_some hc
  have hprev : p ∈ pathsOf prev := mem_of_hashOf_some hp
  have hcom : p ∈ initialConsumed prev cur := mem_initialConsumed.mpr ⟨hcur, hprev⟩
  refine ⟨?_, ?_, ?_, ?_, ?_⟩
  · rw [mem_modified_iff, hp, hc]
    simp [hcur, hprev, ne_comm]
  · exact fun ha => (mem_added_decomp.mp ha).2.1 hcom
  · exact fun hd => (mem_deleted_decomp.mp hd).2.1 hcom
  · exact fun ho => (olds_spec ho).2 hcom
  · exact fun hn => (news_spec hn).2 hcom

/-- C2 witness: the hypotheses of `c2_modification_priority` hold at a
one-file snapshot whose content changed, and the conclusion follows by the
theorem. -/
theorem c2_witness :
    hashOf [⟨"a.txt", "h1"⟩] "a.txt" = some "h1" ∧
    hashOf [⟨"a.txt", "h2"⟩] "a.txt" = some "h2" ∧
    (("a.txt" ∈ (compareFn [⟨"a.txt", "h1"⟩] [⟨"a.txt", "h2"⟩] ["a.txt"]).modified ↔
        ("h1" : String) ≠ "h2") ∧
      "a.txt" ∉ (compareFn [⟨"a.txt", "h1"⟩] [⟨"a.txt", "h2"⟩] ["a.txt"]).added ∧
      "a.txt" ∉ (compareFn [⟨"a.txt", "h1"⟩] [⟨"a.txt", "h2"⟩] ["a.txt"]).deleted ∧
      "a.txt" ∉ oldPaths (compareFn [⟨"a.txt", "h1"⟩] [⟨"a.txt", "h2"⟩] ["a.txt"]) ∧
      "a.txt" ∉ newPaths (compareFn [⟨"a.txt", "h1"⟩] [⟨"a.txt", "h2"⟩] ["a.txt"])) :=
  ⟨by decide, by decide,
    c2_modification_priority [⟨"a.txt", "h1"⟩] [⟨"a.txt", "h2"⟩] ["a.txt"] "a.txt" "h1" "h2"
      (by decide) (by decide)⟩

/-! ## Rename-pass matching (C3) -/

theorem renameStep_full_cases (prev cur : Snapshot) (s : RState) (p : String) :
    (p ∈ s.consumedCurrent ∧ renameStep prev cur s p = s) ∨
    (hashOf cur p = none ∧ renameStep prev cur s p = s) ∨
    (∃ h, p ∉ s.consumedCurrent ∧ hashOf cur p = some h ∧
      pickCandidate prev h s.consumedSaved = none ∧ renameStep prev cur s p = s) ∨
    (∃ h old, p ∉ s.consumedCurrent ∧ hashOf cur p = some h ∧
      pickCandidate prev h s.consumedSaved = some old ∧
      renameStep prev cur s p =
        ⟨s.pairs ++ [⟨old, p⟩], s.consumedSaved ++ [old], s.consumedCurrent ++ [p]⟩) := by
  by_cases hcc : p ∈ s.consumedCurrent
  · exact Or.inl ⟨hcc, by simp [renameStep, hcc]⟩
  · cases hh : hashOf cur p with
    | none => exact Or.inr (Or.inl ⟨rfl, by simp [renameStep, hcc, hh]⟩)
    | some h =>
      cases hpick : pickCandidate prev h s.consumedSaved with
      | none =>
        exact Or.inr (Or.inr (Or.inl ⟨h, hcc, rfl, hpick, by simp [renameStep, hcc, hh, hpick]⟩))
      | some old =>
        exact Or.inr (Or.inr (Or.inr
          ⟨h, old, hcc, rfl, hpick, by simp [renameStep, hcc, hh, hpick]⟩))

theorem fold_unmatched {prev cur : Snapshot} {p h : String} (hh : hashOf cur p = some h) :
    ∀ (order : List String) (s : RState), p ∈ order →
      p ∉ (order.foldl (renameStep prev cur) s).consumedCurrent →
      ∀ e ∈ prev, e.hash = h → e.path ∈ (order.foldl (renameStep prev cur) s).consumedSaved := by
  intro order
  induction order with
  | nil => intro s hmem; exact absurd hmem (List.not_mem_nil p)
  | cons q t ih =>
    intro s hmem hnot e he heh
    rw [List.foldl_cons] at hnot ⊢
    rcases List.mem_cons.mp hmem with heqp | hmem'
    · subst heqp
      rcases renameStep_full_cases prev cur s p with
        ⟨hin, heq⟩ | ⟨hnone, heq⟩ | ⟨h', hni, hh', hpick, heq⟩ | ⟨h', old, hni, hh', hpick, heq⟩
      · exact absurd (foldl_cc_sub prev cur t _ p (by rw [heq]; exact hin)) hnot
      · exact Option.noConfusion (hh.symm.trans hnone)
      · have hhe : h' = h := Option.some.inj (hh'.symm.trans hh)
        have hmem2 : e.path ∈ s.consumedSaved :=
          pickCandidate_none hpick e he (heh.trans hhe.symm)
        exact foldl_cs_sub prev cur t _ e.path (by rw [heq]; exact hmem2)
      · exact absurd (foldl_cc_sub prev cur t _ p (by rw [heq]; simp)) hnot
    · exact ih _ hmem' hnot e he heh

/-- C3: the rename pass is a one-to-one matching by fingerprint: no saved path
is matched twice and no current path matched twice; each emitted pair joins a
deleted-candidate saved path to an added-candidate current path with the same
fingerprint; and no current path is left unmatched (added) while an unconsumed
saved path (deleted) with equal fingerprint remains.  In particular renaming a
single file is reported as exactly one pair and nothing else. -/
theorem c3_rename_matching (prev cur : Snapshot) (order : List String)
    (hnp : (pathsOf prev).Nodup) (horder : ∀ q ∈ pathsOf cur, q ∈ order) :
    ((oldPaths (compareFn prev cur order)).Nodup ∧
    (newPaths (compareFn prev cur order)).Nodup ∧
    (∀ pr ∈ (compareFn prev cur order).renamedOrMoved, ∃ h,
      hashOf prev pr.oldPath = some h ∧ hashOf cur pr.newPath = some h ∧
      pr.oldPath ∈ pathsOf prev ∧ pr.oldPath ∉ pathsOf cur ∧
      pr.newPath ∈ pathsOf cur ∧ pr.newPath ∉ pathsOf prev) ∧
    (∀ p ∈ (compareFn prev cur order).added, ∀ q ∈ (compareFn prev cur order).deleted,
      hashOf cur p ≠ hashOf prev q)) ∧
    compareRun [⟨"a.txt", "h1"⟩] [⟨"b.txt", "h1"⟩] = ⟨[], [], [], [⟨"a.txt", "b.txt"⟩]⟩ := by
  have inv := rinv_final prev cur order
  refine ⟨⟨?_, ?_, ?_, ?_⟩, by decide⟩
  · rw [compare_olds]; exact inv.olds_nodup
  · rw [compare_news]; exact inv.news_nodup
  · intro pr hpr
    rw [compare_pairs] at hpr
    rcases inv.pair_hash pr hpr with ⟨h, hnew, e, he, hep, heh⟩
    have holdmem : pr.oldPath ∈ pathsOf prev := mem_pathsOf.mpr ⟨e, he, hep⟩
    have hnewmem : pr.newPath ∈ pathsOf cur := mem_of_hashOf_some hnew
    have holdold : pr.oldPath ∈ (finalState prev cur order).pairs.map
        RenamedOrMovedFile.oldPath := List.mem_map.mpr ⟨pr, hpr, rfl⟩
    have hnewnew : pr.newPath ∈ (finalState prev cur order).pairs.map
        RenamedOrMovedFile.newPath := List.mem_map.mpr ⟨pr, hpr, rfl⟩
    refine ⟨h, ?_, hnew, holdmem, ?_, hnewmem, ?_⟩
    · have := hashOf_entry hnp he
      rw [hep, heh] at this
      exact this
    · intro hcur
      exact inv.olds_not_common _ holdold (mem_initialConsumed.mpr ⟨hcur, holdmem⟩)
    · intro hprev
      exact inv.news_not_common _ hnewnew (mem_initialConsumed.mpr ⟨hnewmem, hprev⟩)
  · intro p hp q hq heq
    rcases mem_added_iff.mp hp with ⟨hcur, hnc⟩
    rcases mem_deleted_iff.mp hq with ⟨hprev, hns⟩
    rcases hashOf_isSome_of_mem hcur with ⟨hcp, hhcp⟩
    have hhq : hashOf prev q = some hcp := by rw [← heq]; exact hhcp
    rcases hashOf_some_mem hhq with ⟨e, he, hepq, heh⟩
    have : e.path ∈ (finalState prev cur order).consumedSaved := by
      rw [finalState]
      exact fold_unmatched hhcp order _ (horder p hcur)
        (by rw [← finalState]; exact hnc) e he heh
    rw [hepq] at this
    exact hns this

/-- C3 witness: the hypotheses of `c3_rename_matching` hold on the one-file
rename example, and the theorem applies there. -/
theorem c3_witness :
    (pathsOf [(⟨"a.txt", "h1"⟩ : FileEntry)]).Nodup ∧
    (∀ q ∈ pathsOf [(⟨"b.txt", "h1"⟩ : FileEntry)], q ∈ ["b.txt"]) ∧
    (oldPaths (compareFn [⟨"a.txt", "h1"⟩] [⟨"b.txt", "h1"⟩] ["b.txt"])).Nodup :=
  ⟨by decide, by decide,
    (c3_rename_matching [⟨"a.txt", "h1"⟩] [⟨"b.txt", "h1"⟩] ["b.txt"]
      (by decide) (by decide)).1.1⟩

/-! ## Order invariance of the rename pass (C5) -/

theorem renameStep_skip {prev cur : Snapshot} {s : RState} {p : String}
    (hin : p ∈ s.consumedCurrent) : renameStep prev cur s p = s := by
  simp [renameStep, hin]

theorem renameStep_nohash {prev cur : Snapshot} {s : RState} {p : String}
    (hni : p ∉ s.consumedCurrent) (hh : hashOf cur p = none) :
    renameStep prev cur s p = s := by
  simp [renameStep, hni, hh]

theorem renameStep_nopick {prev cur : Snapshot} {s : RState} {p h : String}
    (hni : p ∉ s.consumedCurrent) (hh : hashOf cur p = some h)
    (hpk : pickCandidate prev h s.consumedSaved = none) :
    renameStep prev cur s p = s := by
  simp [renameStep, hni, hh, hpk]

theorem renameStep_match {prev cur : Snapshot} {s : RState} {p h old : String}
    (hni : p ∉ s.consumedCurrent) (hh : hashOf cur p = some h)
    (hpk : pickCandidate prev h s.consumedSaved = some old) :
    renameStep prev cur s p =
      ⟨s.pairs ++ [⟨old, p⟩], s.consumedSaved ++ [old], s.consumedCurrent ++ [p]⟩ := by
  simp [renameStep, hni, hh, hpk]

theorem find?_congr_mem {α : Type} {p q : α → Bool} :
    ∀ {l : List α}, (∀ x ∈ l, p x = q x) → l.find? p = l.find? q
  | [], _ => rfl
  | a :: t, h => by
    have ha := h a (List.mem_cons_self a t)
    cases hpa : p a with
    | true => rw [List.find?_cons_of_pos _ hpa, List.find?_cons_of_pos _ (ha ▸ hpa)]
    | false =>
      rw [List.find?_cons_of_neg _ (by simp [hpa]), List.find?_cons_of_neg _ (by simp [← ha, hpa])]
      exact find?_congr_mem (fun x hx => h x (List.mem_cons_of_mem a hx))

theorem pickCandidate_congr {prev : Snapshot} {h : String} {cs1 cs2 : List String}
    (hiff : ∀ x, x ∈ cs1 ↔ x ∈ cs2) :
    pickCandidate prev h cs1 = pickCandidate prev h cs2 := by
  unfold pickCandidate
  rw [find?_congr_mem]
  intro e he
  by_cases hmem : e.path ∈ cs1
  · rw [(contains_true_iff _ _).mpr hmem, (contains_true_iff _ _).mpr ((hiff e.path).mp hmem)]
  · rw [(contains_false_iff _ _).mpr hmem,
      (contains_false_iff _ _).mpr (fun hc => hmem ((hiff e.path).mpr hc))]

theorem pickCandidate_append_ne {prev : Snapshot} (hnp : (pathsOf prev).Nodup)
    {h1 h2 o : String} {cs : List String}
    (hpk : pickCandidate prev h1 cs = some o) (hne : h2 ≠ h1) :
    pickCandidate prev h2 (cs ++ [o]) = pickCandidate prev h2 cs := by
  rcases pickCandidate_some hpk with ⟨e1, he1, he1p, he1h, -⟩
  unfold pickCandidate
  rw [find?_congr_mem]
  intro e he
  rw [List.mem_filter] at he
  have heh : e.hash = h2 := by simpa using he.2
  have hepo : e.path ≠ o := by
    intro heq
    have : e = e1 := List.inj_on_of_nodup_map (by simpa [pathsOf] using hnp) he.1 he1
      (by rw [heq, he1p])
    rw [this, he1h] at heh
    exact hne heh.symm
  by_cases hmem : e.path ∈ cs
  · rw [(contains_true_iff _ _).mpr (List.mem_append_left _ hmem),
      (contains_true_iff _ _).mpr hmem]
  · rw [(contains_false_iff _ _).mpr
      (by simp [List.mem_append, hmem, hepo]),
      (contains_false_iff _ _).mpr hmem]

theorem cc_after_step (prev cur : Snapshot) (s : RState) (p : String) :
    (renameStep prev cur s p).consumedCurrent = s.consumedCurrent ∨
    (renameStep prev cur s p).consumedCurrent = s.consumedCurrent ++ [p] := by
  rcases renameStep_cases prev cur s p with heq | ⟨h, old, -, -, -, heq⟩
  · exact Or.inl (by rw [heq])
  · exact Or.inr (by rw [heq])

theorem step_swap_skip {prev cur : Snapshot} {s : RState} {x : String} (y : String)
    (hx : x ∈ s.consumedCurrent) :
    renameStep prev cur (renameStep prev cur s x) y =
      renameStep prev cur (renameStep prev cur s y) x := by
  rw [renameStep_skip hx]
  rcases renameStep_full_cases prev cur s y with
    ⟨-, heq⟩ | ⟨-, heq⟩ | ⟨h, -, -, -, heq⟩ | ⟨h, old, -, -, -, heq⟩
  · rw [heq, renameStep_skip hx]
  · rw [heq, renameStep_skip hx]
  · rw [heq, renameStep_skip hx]
  · rw [heq, renameStep_skip (List.mem_append_left _ hx)]

theorem step_swap {prev cur : Snapshot} (hnp : (pathsOf prev).Nodup) (s : RState) {x y : String}
    (hxy : x ≠ y) :
    (∀ q, q ∈ (renameStep prev cur (renameStep prev cur s x) y).consumedSaved ↔
      q ∈ (renameStep prev cur (renameStep prev cur s y) x).consumedSaved) ∧
    (∀ q, q ≠ x → q ≠ y →
      (q ∈ (renameStep prev cur (renameStep prev cur s x) y).consumedCurrent ↔
        q ∈ (renameStep prev cur (renameStep prev cur s y) x).consumedCurrent)) := by
  by_cases hx : x ∈ s.consumedCurrent
  · rw [step_swap_skip y hx]
    exact ⟨fun q => Iff.rfl, fun q _ _ => Iff.rfl⟩
  by_cases hy : y ∈ s.consumedCurrent
  · rw [step_swap_skip x hy]
    exact ⟨fun q => Iff.rfl, fun q _ _ => Iff.rfl⟩
  cases hhx : hashOf cur x with
  | none =>
    have h1 : renameStep prev cur s x = s := renameStep_nohash hx hhx
    have h2 : x ∉ (renameStep prev cur s y).consumedCurrent := by
      rcases cc_after_step prev cur s y with heq | heq <;> rw [heq]
      · exact hx
      · simp [hx, hxy]
    rw [h1, renameStep_nohash h2 hhx]
    exact ⟨fun q => Iff.rfl, fun q _ _ => Iff.rfl⟩
  | some hX =>
    cases hhy : hashOf cur y with
    | none =>
      have h1 : renameStep prev cur s y = s := renameStep_nohash hy hhy
      have h2 : y ∉ (renameStep prev cur s x).consumedCurrent := by
        rcases cc_after_step prev cur s x with heq | heq <;> rw [heq]
        · exact hy
        · simp [hy, Ne.symm hxy]
      rw [h1, renameStep_nohash h2 hhy]
      exact ⟨fun q => Iff.rfl, fun q _ _ => Iff.rfl⟩
    | some hY =>
      cases hpx : pickCandidate prev hX s.consumedSaved with
      | none =>
        have h1 : renameStep prev cur s x = s := renameStep_nopick hx hhx hpx
        rw [h1]
        rcases renameStep_full_cases prev cur s y with
          ⟨hin, heq⟩ | ⟨hnone, heq⟩ | ⟨h', hni, hh', hpk, heq⟩ | ⟨h', oy, hni, hh', hpk, heq⟩
        · exact absurd hin hy
        · exact Option.noConfusion (hhy.symm.trans hnone)
        · rw [heq, renameStep_nopick hx hhx hpx]
          exact ⟨fun q => Iff.rfl, fun q _ _ => Iff.rfl⟩
        · have hne : hX ≠ h' := by
            intro heqh
            rw [heqh] at hpx
            exact Option.noConfusion (hpx.symm.trans hpk)
          rw [heq]
          have hx2 : x ∉ (s.consumedCurrent ++ [y]) := by simp [hx, hxy]
          have hpx2 : pickCandidate prev hX (s.consumedSaved ++ [oy]) = none :=
            (pickCandidate_append_ne hnp hpk hne).trans hpx
          rw [renameStep_nopick hx2 hhx hpx2]
          exact ⟨fun q => Iff.rfl, fun q _ _ => Iff.rfl⟩
      | some ox =>
        have h1 : renameStep prev cur s x =
            ⟨s.pairs ++ [⟨ox, x⟩], s.consumedSaved ++ [ox], s.consumedCurrent ++ [x]⟩ :=
          renameStep_match hx hhx hpx
        have hy1 : y ∉ (s.consumedCurrent ++ [x]) := by simp [hy, Ne.symm hxy]
        have hx2 : x ∉ (s.consumedCurrent ++ [y]) := by simp [hx, hxy]
        by_cases hXY : hX = hY
        · subst hXY
          have h2 : renameStep prev cur s y =
              ⟨s.pairs ++ [⟨ox, y⟩], s.consumedSaved ++ [ox], s.consumedCurrent ++ [y]⟩ :=
            renameStep_match hy hhy hpx
          cases hpB : pickCandidate prev hX (s.consumedSaved ++ [ox]) with
          | none =>
            rw [h1, h2, renameStep_nopick hy1 hhy hpB, renameStep_nopick hx2 hhx hpB]
            constructor
            · intro q; exact Iff.rfl
            · intro q hqx hqy; simp [List.mem_append, hqx, hqy]
          | some o2 =>
            rw [h1, h2, renameStep_match hy1 hhy hpB, renameStep_match hx2 hhx hpB]
            constructor
            · intro q; exact Iff.rfl
            · intro q hqx hqy; simp [List.mem_append, hqx, hqy]
        · have hpyB : pickCandidate prev hY (s.consumedSaved ++ [ox]) =
              pickCandidate prev hY s.consumedSaved :=
            pickCandidate_append_ne hnp hpx (fun h => hXY h.symm)
          cases hpy : pickCandidate prev hY s.consumedSaved with
          | none =>
            have h2 : renameStep prev cur s y = s := renameStep_nopick hy hhy hpy
            rw [h1, h2, renameStep_nopick hy1 hhy (hpyB.trans hpy), h1]
            exact ⟨fun q => Iff.rfl, fun q _ _ => Iff.rfl⟩
          | some oy =>
            have h2 : renameStep prev cur s y =
                ⟨s.pairs ++ [⟨oy, y⟩], s.consumedSaved ++ [oy], s.consumedCurrent ++ [y]⟩ :=
              renameStep_match hy hhy hpy
            have hpxB : pickCandidate prev hX (s.consumedSaved ++ [oy]) =
                pickCandidate prev hX s.consumedSaved :=
              pickCandidate_append_ne hnp hpy hXY
            rw [h1, h2, renameStep_match hy1 hhy (hpyB.trans hpy),
              renameStep_match hx2 hhx (hpxB.trans hpx)]
            constructor
            · intro q
              simp only [List.mem_append, List.mem_singleton]
              tauto
            · intro q hqx hqy; simp [List.mem_append, hqx, hqy]

theorem fold_cs_congr {prev cur : Snapshot} :
    ∀ (rest : List String) (s1 s2 : RState),
      (∀ q, q ∈ s1.consumedSaved ↔ q ∈ s2.consumedSaved) →
      (∀ q ∈ rest, (q ∈ s1.consumedCurrent ↔ q ∈ s2.consumedCurrent)) →
      ∀ q, q ∈ (rest.foldl (renameStep prev cur) s1).consumedSaved ↔
        q ∈ (rest.foldl (renameStep prev cur) s2).consumedSaved := by
  intro rest
  induction rest with
  | nil => intro s1 s2 hcs _ q; exact hcs q
  | cons r t ih =>
    intro s1 s2 hcs hcc q
    rw [List.foldl_cons, List.foldl_cons]
    have hccr := hcc r (List.mem_cons_self r t)
    by_cases hr1 : r ∈ s1.consumedCurrent
    · have hr2 : r ∈ s2.consumedCurrent := hccr.mp hr1
      rw [renameStep_skip hr1, renameStep_skip hr2]
      exact ih s1 s2 hcs (fun q2 hq2 => hcc q2 (List.mem_cons_of_mem r hq2)) q
    · have hr2 : r ∉ s2.consumedCurrent := fun h => hr1 (hccr.mpr h)
      cases hh : hashOf cur r with
      | none =>
        rw [renameStep_nohash hr1 hh, renameStep_nohash hr2 hh]
        exact ih s1 s2 hcs (fun q2 hq2 => hcc q2 (List.mem_cons_of_mem r hq2)) q
      | some h =>
        have hpick : pickCandidate prev h s1.consumedSaved =
            pickCandidate prev h s2.consumedSaved := pickCandidate_congr hcs
        cases hp1 : pickCandidate prev h s1.consumedSaved with
        | none =>
          rw [renameStep_nopick hr1 hh hp1, renameStep_nopick hr2 hh (hpick.symm.trans hp1)]
          exact ih s1 s2 hcs (fun q2 hq2 => hcc q2 (List.mem_cons_of_mem r hq2)) q
        | some old =>
          rw [renameStep_match hr1 hh hp1, renameStep_match hr2 hh (hpick.symm.trans hp1)]
          refine ih _ _ ?_ ?_ q
          · intro q2; simp [List.mem_append, hcs q2]
          · intro q2 hq2
            have hiff := hcc q2 (List.mem_cons_of_mem r hq2)
            simp [List.mem_append, hiff]

theorem fold_cs_perm {prev cur : Snapshot} (hnp : (pathsOf prev).Nodup) :
    ∀ {o1 o2 : List String}, o1.Perm o2 → o1.Nodup →
      ∀ (s : RState) (q : String),
        (q ∈ (o1.foldl (renameStep prev cur) s).consumedSaved ↔
         q ∈ (o2.foldl (renameStep prev cur) s).consumedSaved) := by
  intro o1 o2 hperm
  induction hperm with
  | nil => intro _ s q; exact Iff.rfl
  | cons a hp ih =>
    intro hnd s q
    rw [List.foldl_cons, List.foldl_cons]
    exact ih (List.Nodup.of_cons hnd) (renameStep prev cur s a) q
  | swap a b l =>
    intro hnd s q
    rw [List.foldl_cons, List.foldl_cons, List.foldl_cons, List.foldl_cons]
    have hb : b ∉ a :: l := (List.nodup_cons.mp hnd).1
    have ha : a ∉ l := (List.nodup_cons.mp (List.nodup_cons.mp hnd).2).1
    have hba : b ≠ a := fun h => hb (h ▸ List.mem_cons_self a l)
    have hswap := @step_swap prev cur hnp s b a hba
    refine fold_cs_congr l _ _ hswap.1 ?_ q
    intro q2 hq2
    exact hswap.2 q2 (fun h => hb (h ▸ List.mem_cons_of_mem a hq2)) (fun h => ha (h ▸ hq2))
  | trans h12 h23 ih12 ih23 =>
    intro hnd s q
    exact (ih12 hnd s q).trans (ih23 (h12.nodup hnd) s q)

/-- C5 (amended): once the iteration order of the current-path map is fixed,
`Compare` is a function of its inputs; across two runs whose rename passes
iterate the current paths in different orders, the deleted and modified sets
are nevertheless always the same — only the choice of rename pairings (and
with it the added set) can differ between runs. -/
theorem c5_order_invariance (prev cur : Snapshot) (o1 o2 : List String)
    (hnp : (pathsOf prev).Nodup) (hnd : o1.Nodup) (hperm : o1.Perm o2) :
    (compareFn prev cur o1).deleted = (compareFn prev cur o2).deleted ∧
    (compareFn prev cur o1).modified = (compareFn prev cur o2).modified := by
  refine ⟨?_, rfl⟩
  simp only [compareFn, finalState]
  apply List.filter_congr
  intro p hp
  have hiff := @fold_cs_perm prev cur hnp o1 o2 hperm hnd
    ⟨[], initialConsumed prev cur, initialConsumed prev cur⟩ p
  by_cases hmem : p ∈ (o1.foldl (renameStep prev cur)
      ⟨[], initialConsumed prev cur, initialConsumed prev cur⟩).consumedSaved
  · rw [(contains_true_iff _ _).mpr hmem, (contains_true_iff _ _).mpr (hiff.mp hmem)]
  · rw [(contains_false_iff _ _).mpr hmem,
      (contains_false_iff _ _).mpr (fun h => hmem (hiff.mpr h))]

/-- C5 witness: the amended invariance theorem applies to the concrete
ambiguous-rename snapshots with two candidate orders. -/
theorem c5_witness :
    (pathsOf [(⟨"a", "h"⟩ : FileEntry)]).Nodup ∧
    (["c", "d"] : List String).Nodup ∧
    (["c", "d"] : List String).Perm ["d", "c"] ∧
    (compareFn [⟨"a", "h"⟩] [⟨"c", "h"⟩, ⟨"d", "h"⟩] ["c", "d"]).deleted =
      (compareFn [⟨"a", "h"⟩] [⟨"c", "h"⟩, ⟨"d", "h"⟩] ["d", "c"]).deleted :=
  ⟨by decide, by decide, by decide,
    (c5_order_invariance [⟨"a", "h"⟩] [⟨"c", "h"⟩, ⟨"d", "h"⟩] ["c", "d"] ["d", "c"]
      (by decide) (by decide) (by decide)).1⟩

/-- C5 (counterexample): two runs of `Compare` on the same two snapshots,
differing only in the order in which the rename pass iterates the
current-path map (both orders are permutations of the current paths, as Go
map iteration produces), return different comparisons: the rename pairing and
the added set differ. -/
theorem c5_counterexample :
    (["c", "d"] : List String).Perm (pathsOf [(⟨"c", "h"⟩ : FileEntry), ⟨"d", "h"⟩]) ∧
    (["d", "c"] : List String).Perm (pathsOf [(⟨"c", "h"⟩ : FileEntry), ⟨"d", "h"⟩]) ∧
    compareFn [⟨"a", "h"⟩] [⟨"c", "h"⟩, ⟨"d", "h"⟩] ["c", "d"] ≠
      compareFn [⟨"a", "h"⟩] [⟨"c", "h"⟩, ⟨"d", "h"⟩] ["d", "c"] :=
  ⟨by decide, by decide, by decide⟩

/-! ## The frame of the Compare method (C6) -/

/-- C6 (counterexample): `Compare` is not free of effects on the `Index`: it
overwrites the receiver's `FilesByContentHash` with the fresh scan, so when
the directory changed since the loaded snapshot, the `Index` state after the
call differs from the state before it. -/
theorem c6_counterexample :
    (compareMethod ⟨[⟨"a", "h"⟩], [], false⟩ []).2 ≠ ⟨[⟨"a", "h"⟩], [], false⟩ := by
  decide

/-- C6 (amended): the comparison result is a pure function of the two
snapshots — the loaded records and the fresh scan — and the method's only
effect on the `Index` is to replace `FilesByContentHash` with the fresh scan
(`AbsPath` and `IncludeHidden` are untouched). -/
theorem c6_compare_method (idx idx' : IndexState) (rescan : Snapshot)
    (hsame : idx.filesByContentHash = idx'.filesByContentHash) :
    (compareMethod idx rescan).1 = (compareMethod idx' rescan).1 ∧
    (compareMethod idx rescan).1 = compareRun idx.filesByContentHash rescan ∧
    (compareMethod idx rescan).2 = ⟨rescan, idx.absPath, idx.includeHidden⟩ := by
  refine ⟨?_, rfl, rfl⟩
  simp [compareMethod, hsame]

/-- C6 witness: two indexes with the same loaded records but different other
fields produce the same comparison result against the same rescan. -/
theorem c6_witness :
    (⟨[⟨"a", "h"⟩], [], false⟩ : IndexState).filesByContentHash =
      (⟨[⟨"a", "h"⟩], ["root"], true⟩ : IndexState).filesByContentHash ∧
    ((compareMethod ⟨[⟨"a", "h"⟩], [], false⟩ []).1 =
        (compareMethod ⟨[⟨"a", "h"⟩], ["root"], true⟩ []).1 ∧
      (compareMethod ⟨[⟨"a", "h"⟩], [], false⟩ []).1 = compareRun [⟨"a", "h"⟩] [] ∧
      (compareMethod ⟨[⟨"a", "h"⟩], [], false⟩ []).2 = ⟨[], [], false⟩) :=
  ⟨by decide, c6_compare_method ⟨[⟨"a", "h"⟩], [], false⟩ ⟨[⟨"a", "h"⟩], ["root"], true⟩ []
    (by decide)⟩

/-! ## Scan abort on first failure (C7) -/

theorem except_bind_ok {e a b : Type} (x : a) (f : a → Except e b) :
    (Except.ok x : Except e a) >>= f = f x := rfl

theorem except_bind_error {e a b : Type} (x : e) (f : a → Except e b) :
    (Except.error x : Except e a) >>= f = Except.error x := rfl

theorem except_map_ok {e a b : Type} (x : a) (f : a → b) :
    Except.map f (Except.ok x : Except e a) = Except.ok (f x) := rfl

theorem except_map_error {e a b : Type} (x : e) (f : a → b) :
    Except.map f (Except.error x : Except e a) = Except.error x := rfl

theorem collectE_cons_ok (r : List String) (h : String)
    (rest : List (List String × Except String String)) :
    collectE ((r, Except.ok h) :: rest) =
      Except.map (fun l => (r, h) :: l) (collectE rest) := rfl

theorem collectE_cons_error (r : List String) (c : String)
    (rest : List (List String × Except String String)) :
    collectE ((r, Except.error c) :: rest) = Except.error ⟨r, c⟩ := rfl

theorem collectE_append (l1 l2 : List (List String × Except String String)) :
    collectE (l1 ++ l2) = (do
      let r1 ← collectE l1
      let r2 ← collectE l2
      Except.ok (r1 ++ r2)) := by
  induction l1 with
  | nil =>
    show collectE l2 = (Except.ok [] : Except ScanError (List ScanRecord)) >>= _
    rw [except_bind_ok]
    cases h2 : collectE l2 <;> simp [except_bind_ok, except_bind_error, h2]
  | cons a t ih =>
    rcases a with ⟨r0, d0⟩
    cases d0 with
    | ok h0 =>
      rw [List.cons_append, collectE_cons_ok, ih, collectE_cons_ok]
      cases ht : collectE t <;> cases h2 : collectE l2 <;>
        simp [except_bind_ok, except_bind_error, except_map_ok, except_map_error]
    | error c0 =>
      rw [List.cons_append, collectE_cons_error, collectE_cons_error, except_bind_error]

/-- Failing entries make `collectE` abort with the first of them. -/
theorem collectE_error_of_find :
    ∀ {l : List (List String × Except String String)} {r : List String} {c : String},
      l.find? (fun e => isFailure e.2) = some (r, Except.error c) →
      collectE l = Except.error ⟨r, c⟩ := by
  intro l
  induction l with
  | nil => intro r c h; exact Option.noConfusion h
  | cons a t ih =>
    intro r c h
    rcases a with ⟨r0, d0⟩
    cases d0 with
    | error c0 =>
      rw [List.find?_cons_of_pos _ (by simp [isFailure])] at h
      have heq := Option.some.inj h
      have hr : r0 = r := congrArg Prod.fst heq
      have hc : (Except.error c0 : Except String String) = Except.error c :=
        congrArg Prod.snd heq
      have hc2 : c0 = c := by cases hc; rfl
      simp [collectE, hr, hc2]
    | ok h0 =>
      rw [List.find?_cons_of_neg _ (by simp [isFailure])] at h
      simp [collectE, ih h, Except.map]

mutual
theorem scanNode_eq_collectE (ih : Bool) (rel : List String) (n : FsNode) :
    scanNode ih rel n = collectE (retainedNode ih rel n) := by
  cases n with
  | file nm data =>
    simp only [scanNode, retainedNode]
    split
    · simp [collectE]
    · split
      · simp [collectE]
      · cases data <;> simp [collectE, Except.map]
  | dir nm children =>
    simp only [scanNode, retainedNode]
    split
    · exact scanChildren_eq_collectE ih rel children
    · split
      · simp [collectE]
      · exact scanChildren_eq_collectE ih rel children
termination_by structural n

theorem scanChildren_eq_collectE (ih : Bool) (rel : List String) (l : List FsNode) :
    scanChildren ih rel l = collectE (retainedChildren ih rel l) := by
  cases l with
  | nil => simp [scanChildren, retainedChildren, collectE]
  | cons c cs =>
    simp only [scanChildren, retainedChildren]
    rw [collectE_append, scanNode_eq_collectE ih (rel ++ [c.name]) c,
      scanChildren_eq_collectE ih rel cs]
termination_by structural l
end

/-- C7: when some retained traversal entry cannot be processed, the scan fails
with a `ScanError` carrying the path and cause of the first such entry in walk
order — it is not skipped — and `Index()` persists nothing. -/
theorem c7_scan_aborts (ih : Bool) (root : FsNode) (relp : List String) (cause : String)
    (hfind : (retainedNode ih [] root).find? (fun e => isFailure e.2) =
      some (relp, Except.error cause)) :
    scanRoot ih root = Except.error ⟨relp, cause⟩ ∧
    indexMethod ih root = ⟨Except.error ⟨relp, cause⟩, none⟩ := by
  have hs : scanRoot ih root = Except.error ⟨relp, cause⟩ := by
    rw [scanRoot, scanNode_eq_collectE]
    exact collectE_error_of_find hfind
  exact ⟨hs, by simp [indexMethod, hs]⟩

/-- C7 witness: a directory with a single unreadable file aborts the scan and
persists nothing. -/
theorem c7_witness :
    (retainedNode false [] (.dir "root" [.file "bad.txt" (.error "io failure")])).find?
      (fun e => isFailure e.2) = some (["bad.txt"], Except.error "io failure") ∧
    (scanRoot false (.dir "root" [.file "bad.txt" (.error "io failure")]) =
        Except.error ⟨["bad.txt"], "io failure"⟩ ∧
      indexMethod false (.dir "root" [.file "bad.txt" (.error "io failure")]) =
        ⟨Except.error ⟨["bad.txt"], "io failure"⟩, none⟩) :=
  ⟨by decide, c7_scan_aborts false (.dir "root" [.file "bad.txt" (.error "io failure")])
    ["bad.txt"] "io failure" (by decide)⟩

/-! ## Hidden-file policy (C8) -/

mutual
theorem scanNode_nohidden (rel : List String) (n : FsNode)
    (hdrop : ∀ seg ∈ rel.dropLast, isHiddenName seg = false)
    (hlast : rel = [] ∨ ∃ r0, rel = r0 ++ [n.name])
    (recs : List ScanRecord) (hok : scanNode false rel n = Except.ok recs) :
    ∀ r ∈ recs, ∀ seg ∈ r.1, isHiddenName seg = false := by
  cases n with
  | file nm data =>
    simp only [scanNode] at hok
    split at hok
    next h1 =>
      injection hok with h
      subst h
      intro r hr
      exact absurd hr (List.not_mem_nil r)
    next h1 =>
      split at hok
      next h2 =>
        injection hok with h
        subst h
        intro r hr
        exact absurd hr (List.not_mem_nil r)
      next h2 =>
        cases data with
        | error c => exact absurd hok (by simp)
        | ok hsh =>
          injection hok with h
          subst h
          intro r hr seg hseg
          have hrr : r = (rel, hsh) := by simpa using hr
          rw [hrr] at hseg
          rcases hlast with hrel | ⟨r0, hrel⟩
          · rw [hrel] at hseg
            exact absurd hseg (List.not_mem_nil seg)
          · rw [hrel] at hseg
            rcases List.mem_append.mp hseg with hseg0 | hseg1
            · exact hdrop seg (by rw [hrel, List.dropLast_concat]; exact hseg0)
            · have hsegnm : seg = nm := by simpa using hseg1
              rw [hsegnm]
              cases hhid : isHiddenName nm with
              | false => rfl
              | true => exact absurd (by simp [hhid, hrel]) h2
  | dir nm children =>
    simp only [scanNode] at hok
    split at hok
    next h1 =>
      refine scanChildren_nohidden rel children ?_ recs hok
      intro seg hseg
      rw [h1] at hseg
      have hsege : seg = indexFileName := by simpa using hseg
      rw [hsege]
      decide
    next h1 =>
      split at hok
      next h2 =>
        injection hok with h
        subst h
        intro r hr
        exact absurd hr (List.not_mem_nil r)
      next h2 =>
        refine scanChildren_nohidden rel children ?_ recs hok
        intro seg hseg
        rcases hlast with hrel | ⟨r0, hrel⟩
        · rw [hrel] at hseg
          exact absurd hseg (List.not_mem_nil seg)
        · rw [hrel] at hseg
          rcases List.mem_append.mp hseg with hseg0 | hseg1
          · exact hdrop seg (by rw [hrel, List.dropLast_concat]; exact hseg0)
          · have hsegnm : seg = nm := by simpa using hseg1
            rw [hsegnm]
            cases hhid : isHiddenName nm with
            | false => rfl
            | true => exact absurd (by simp [hhid, hrel]) h2
termination_by structural n

theorem scanChildren_nohidden (rel : List String) (l : List FsNode)
    (hall : ∀ seg ∈ rel, isHiddenName seg = false)
    (recs : List ScanRecord) (hok : scanChildren false rel l = Except.ok recs) :
    ∀ r ∈ recs, ∀ seg ∈ r.1, isHiddenName seg = false := by
  cases l with
  | nil =>
    simp only [scanChildren] at hok
    injection hok with h
    subst h
    intro r hr
    exact absurd hr (List.not_mem_nil r)
  | cons c cs =>
    simp only [scanChildren] at hok
    cases h1 : scanNode false (rel ++ [c.name]) c with
    | error e =>
      rw [h1, except_bind_error] at hok
      exact absurd hok (by simp)
    | ok v1 =>
      rw [h1, except_bind_ok] at hok
      cases h2 : scanChildren false rel cs with
      | error e =>
        rw [h2, except_bind_error] at hok
        exact absurd hok (by simp)
      | ok v2 =>
        rw [h2, except_bind_ok] at hok
        injection hok with h
        subst h
        intro r hr seg hseg
        rcases List.mem_append.mp hr with hr1 | hr2
        · exact scanNode_nohidden (rel ++ [c.name]) c
            (by rw [List.dropLast_concat]; exact hall)
            (Or.inr ⟨rel, rfl⟩) v1 h1 r hr1 seg hseg
        · exact scanChildren_nohidden rel cs hall v2 h2 r hr2 seg hseg
termination_by structural l
end

/-- C8: with `includeHidden = false` a successful scan's records contain no
path with a dot-prefixed segment — hidden files are excluded and hidden
directories are pruned whole — and a hidden directory (other than the root) is
skipped without being descended into; with `includeHidden = true` hidden
entries are retained.  The concrete two-file example yields one record with
the policy off and two with it on. -/
theorem c8_hidden_policy :
    (∀ (root : FsNode) (recs : List ScanRecord), scanRoot false root = Except.ok recs →
      ∀ r ∈ recs, ∀ seg ∈ r.1, isHiddenName seg = false) ∧
    (∀ (nm : String) (children : List FsNode) (rel : List String),
      rel ≠ [] → rel ≠ [indexFileName] → isHiddenName nm = true →
      scanNode false rel (.dir nm children) = Except.ok []) ∧
    scanRoot false (.dir "d" [.file "file.txt" (.ok "hc"), .file ".hidden" (.ok "hc")]) =
      Except.ok [(["file.txt"], "hc")] ∧
    scanRoot true (.dir "d" [.file "file.txt" (.ok "hc"), .file ".hidden" (.ok "hc")]) =
      Except.ok [(["file.txt"], "hc"), ([".hidden"], "hc")] := by
  refine ⟨?_, ?_, by decide, by decide⟩
  · intro root recs hok
    exact scanNode_nohidden [] root (by simp) (Or.inl rfl) recs hok
  · intro nm children rel hne hnidx hhid
    simp [scanNode, hnidx, hne, hhid]

/-- C8 witness: a hidden directory containing an unreadable file is pruned —
the scan succeeds, returns only the visible file, and the theorem's
no-hidden-segment conclusion holds of the result. -/
theorem c8_witness :
    scanRoot false (.dir "d" [.dir ".sub" [.file "x.txt" (.error "io")],
        .file "ok.txt" (.ok "h")]) = Except.ok [(["ok.txt"], "h")] ∧
    (∀ r ∈ [(((["ok.txt"], "h")) : ScanRecord)], ∀ seg ∈ r.1, isHiddenName seg = false) :=
  ⟨by decide,
    c8_hidden_policy.1 (.dir "d" [.dir ".sub" [.file "x.txt" (.error "io")],
      .file "ok.txt" (.ok "h")]) [((["ok.txt"], "h"))] (by decide)⟩

/-! ## Self-exclusion of the index file (C9) -/

mutual
theorem scanNode_noindex (ih : Bool) (rel : List String) (n : FsNode)
    (recs : List ScanRecord) (hok : scanNode ih rel n = Except.ok recs) :
    ∀ r ∈ recs, r.1 ≠ [indexFileName] := by
  cases n with
  | file nm data =>
    simp only [scanNode] at hok
    split at hok
    next h1 =>
      injection hok with h
      subst h
      intro r hr
      exact absurd hr (List.not_mem_nil r)
    next h1 =>
      split at hok
      next h2 =>
        injection hok with h
        subst h
        intro r hr
        exact absurd hr (List.not_mem_nil r)
      next h2 =>
        cases data with
        | error c => exact absurd hok (by simp)
        | ok hsh =>
          injection hok with h
          subst h
          intro r hr
          have hrr : r = (rel, hsh) := by simpa using hr
          rw [hrr]
          exact h1
  | dir nm children =>
    simp only [scanNode] at hok
    split at hok
    next h1 => exact scanChildren_noindex ih rel children recs hok
    next h1 =>
      split at hok
      next h2 =>
        injection hok with h
        subst h
        intro r hr
        exact absurd hr (List.not_mem_nil r)
      next h2 => exact scanChildren_noindex ih rel children recs hok
termination_by structural n

theorem scanChildren_noindex (ih : Bool) (rel : List String) (l : List FsNode)
    (recs : List ScanRecord) (hok : scanChildren ih rel l = Except.ok recs) :
    ∀ r ∈ recs, r.1 ≠ [indexFileName] := by
  cases l with
  | nil =>
    simp only [scanChildren] at hok
    injection hok with h
    subst h
    intro r hr
    exact absurd hr (List.not_mem_nil r)
  | cons c cs =>
    simp only [scanChildren] at hok
    cases h1 : scanNode ih (rel ++ [c.name]) c with
    | error e =>
      rw [h1, except_bind_error] at hok
      exact absurd hok (by simp)
    | ok v1 =>
      rw [h1, except_bind_ok] at hok
      cases h2 : scanChildren ih rel cs with
      | error e =>
        rw [h2, except_bind_error] at hok
        exact absurd hok (by simp)
      | ok v2 =>
        rw [h2, except_bind_ok] at hok
        injection hok with h
        subst h
        intro r hr
        rcases List.mem_append.mp hr with hr1 | hr2
        · exact scanNode_noindex ih (rel ++ [c.name]) c v1 h1 r hr1
        · exact scanChildren_noindex ih rel cs v2 h2 r hr2
termination_by structural l
end

/-- C9: the persisted index's own path `bff.json` directly under the root is
skipped unconditionally: no successful scan, under either hidden policy,
contains a record for it, the skip happens before the file is processed (an
index file at that location is skipped even when its name or readability
would otherwise matter), and an unreadable `bff.json` aborts nothing. -/
theorem c9_self_exclusion :
    (∀ (ih : Bool) (root : FsNode) (recs : List ScanRecord),
      scanRoot ih root = Except.ok recs → ∀ r ∈ recs, r.1 ≠ [indexFileName]) ∧
    (∀ (ih : Bool) (nm : String) (data : Except String String),
      scanNode ih [indexFileName] (.file nm data) = Except.ok []) ∧
    scanRoot false (.dir "d" [.file "bff.json" (.error "unreadable"),
      .file "a.txt" (.ok "h")]) = Except.ok [(["a.txt"], "h")] ∧
    scanRoot true (.dir "d" [.file "bff.json" (.error "unreadable"),
      .file "a.txt" (.ok "h")]) = Except.ok [(["a.txt"], "h")] := by
  refine ⟨?_, ?_, by decide, by decide⟩
  · intro ih root recs hok
    exact scanNode_noindex ih [] root recs hok
  · intro ih nm data
    simp [scanNode]

/-- C9 witness: a readable index file is still excluded from the records, and
the general no-index-record conclusion holds of that scan's result. -/
theorem c9_witness :
    scanRoot false (.dir "d" [.file "bff.json" (.ok "h"), .file "a.txt" (.ok "h")]) =
      Except.ok [(["a.txt"], "h")] ∧
    (∀ r ∈ [(((["a.txt"], "h")) : ScanRecord)], r.1 ≠ [indexFileName]) :=
  ⟨by decide,
    c9_self_exclusion.1 false (.dir "d" [.file "bff.json" (.ok "h"), .file "a.txt" (.ok "h")])
      [((["a.txt"], "h"))] (by decide)⟩

/-! ## FindDuplicates (C10) -/

theorem filter_eq_singleton {α : Type} {l : List α} {p : α → Bool} {e : α}
    (hnd : l.Nodup) (he : e ∈ l) (hpe : p e = true)
    (honly : ∀ x ∈ l, p x = true → x = e) : l.filter p = [e] := by
  induction l with
  | nil => exact absurd he (List.not_mem_nil e)
  | cons a t ih =>
    rcases List.mem_cons.mp he with heq | het
    · subst heq
      rw [List.filter_cons_of_pos hpe]
      have hte : t.filter p = [] := by
        refine List.filter_eq_nil_iff.mpr (fun x hx hpx => ?_)
        have hxe : x = e := honly x (List.mem_cons_of_mem e hx) hpx
        rw [hxe] at hx
        exact (List.nodup_cons.mp hnd).1 hx
      rw [hte]
    · have hae : a ≠ e := fun h => (List.nodup_cons.mp hnd).1 (h ▸ het)
      have hpa : ¬(p a = true) := fun hp => hae (honly a (List.mem_cons_self a t) hp)
      rw [List.filter_cons_of_neg (by simpa using hpa)]
      exact ih (List.nodup_cons.mp hnd).2 het (fun x hx hpx =>
        honly x (List.mem_cons_of_mem a hx) hpx)

/-- C10: `FindDuplicates` fails with the not-found error exactly when the
target path is absent; when the target is a record of the snapshot it returns
the paths of every record sharing the target's fingerprint — always including
the target, and only the target when no other record shares its content. -/
theorem c10_find_duplicates (s : Snapshot) (target : String)
    (hnd : (pathsOf s).Nodup) (hh : ∀ e ∈ s, e.hash ≠ "") :
    (target ∉ pathsOf s → findDuplicates s target = Except.error (.notFound target)) ∧
    (∀ e ∈ s, e.path = target →
      ∃ l, findDuplicates s target = Except.ok l ∧ target ∈ l ∧
        (∀ p, p ∈ l ↔ ∃ e2 ∈ s, e2.path = p ∧ e2.hash = e.hash) ∧
        ((∀ e2 ∈ s, e2.hash = e.hash → e2 = e) → l = [target])) := by
  constructor
  · intro habs
    have hfind : s.find? (fun e2 => e2.path == target) = none :=
      List.find?_eq_none.mpr (fun x hx hbeq =>
        habs (mem_pathsOf.mpr ⟨x, hx, by simpa using hbeq⟩))
    simp [findDuplicates, findTargetHash, hfind]
  · intro e he hep
    have hsome : (s.find? (fun e2 => e2.path == target)).isSome = true := by
      rw [List.find?_isSome]
      exact ⟨e, he, by simp [hep]⟩
    rcases Option.isSome_iff_exists.mp hsome with ⟨e0, hfind⟩
    have he0 := List.mem_of_find?_eq_some hfind
    have he0p : e0.path = target := by simpa using List.find?_some hfind
    have he0e : e0 = e := List.inj_on_of_nodup_map (by simpa [pathsOf] using hnd) he0 he
      (he0p.trans hep.symm)
    rw [he0e] at hfind
    have hth : findTargetHash s target = e.hash := by
      simp [findTargetHash, hfind]
    have hne : e.hash ≠ "" := hh e he
    refine ⟨(s.filter (fun e2 => e2.hash == e.hash)).map FileEntry.path, ?_, ?_, ?_, ?_⟩
    · simp [findDuplicates, hth, hne]
    · exact List.mem_map.mpr ⟨e, List.mem_filter.mpr ⟨he, by simp⟩, hep⟩
    · intro p
      constructor
      · intro hp
        rcases List.mem_map.mp hp with ⟨a, haf, hap⟩
        rcases List.mem_filter.mp haf with ⟨ha, hahash⟩
        exact ⟨a, ha, hap, by simpa using hahash⟩
      · rintro ⟨e2, he2, he2p, he2h⟩
        exact List.mem_map.mpr ⟨e2, List.mem_filter.mpr ⟨he2, by simp [he2h]⟩, he2p⟩
    · intro honly
      have hfil : s.filter (fun e2 => e2.hash == e.hash) = [e] :=
        filter_eq_singleton (List.Nodup.of_map FileEntry.path (by simpa [pathsOf] using hnd))
          he (by simp) (fun x hx hpx => honly x hx (by simpa using hpx))
      rw [hfil]
      simp [hep]

/-- C10 witness: the theorem applies to a two-record snapshot and an absent
target. -/
theorem c10_witness :
    (pathsOf [(⟨"a", "h1"⟩ : FileEntry), ⟨"b", "h1"⟩]).Nodup ∧
    (∀ e ∈ [(⟨"a", "h1"⟩ : FileEntry), ⟨"b", "h1"⟩], e.hash ≠ "") ∧
    ("zz" ∉ pathsOf [(⟨"a", "h1"⟩ : FileEntry), ⟨"b", "h1"⟩] →
      findDuplicates [⟨"a", "h1"⟩, ⟨"b", "h1"⟩] "zz" = Except.error (.notFound "zz")) :=
  ⟨by decide, by decide,
    (c10_find_duplicates [⟨"a", "h1"⟩, ⟨"b", "h1"⟩] "zz" (by decide) (by decide)).1⟩

end Bff
